import Mathlib

/-!
Verification development for the wheel-picker storage core
(`server/src/store.ts`): data model, entity normalizers, weighted spin
selection, the four document mutations, and the promise serialization
queue, embedded as pure Lean functions, with theorems checking the
specified behaviour.
-/

namespace WheelPicker

/-- Model of a JavaScript `number`: NaN, the two infinities, or a finite
value (modelled as a rational; every IEEE double value is rational). -/
inductive JSNum where
  | nan : JSNum
  | posInf : JSNum
  | negInf : JSNum
  | finite (val : ℚ) : JSNum
deriving DecidableEq

/-- JavaScript `Math.round` on a finite number: round half toward
positive infinity, i.e. `⌊x + 1/2⌋`. -/
def jsRound (q : ℚ) : ℤ := ⌊q + 1/2⌋

/-- JavaScript `Math.round` on a general number: NaN and the infinities
are returned unchanged. -/
def jsRoundNum : JSNum → JSNum
  | JSNum.nan => JSNum.nan
  | JSNum.posInf => JSNum.posInf
  | JSNum.negInf => JSNum.negInf
  | JSNum.finite q => JSNum.finite (jsRound q)

/-- JavaScript `Math.max` on two numbers: NaN is contagious, otherwise
the numeric maximum. -/
def jsMax : JSNum → JSNum → JSNum
  | JSNum.nan, _ => JSNum.nan
  | _, JSNum.nan => JSNum.nan
  | JSNum.posInf, _ => JSNum.posInf
  | _, JSNum.posInf => JSNum.posInf
  | JSNum.negInf, b => b
  | a, JSNum.negInf => a
  | JSNum.finite a, JSNum.finite b => JSNum.finite (max a b)

/-- An item of a wheel list (`WheelItem` in `types.ts`).  Weights are
integers after normalization, so the model carries `ℤ`. -/
structure WheelItem where
  id : String
  label : String
  weight : ℤ
deriving DecidableEq

/-- One recorded spin outcome (`SpinResult` in `types.ts`). -/
structure SpinResult where
  id : String
  itemId : String
  label : String
  timestamp : String
deriving DecidableEq

/-- A wheel list (`WheelList` in `types.ts`). -/
structure WheelList where
  id : String
  name : String
  description : Option String
  items : List WheelItem
  spins : List SpinResult
  createdAt : String
  updatedAt : String
deriving DecidableEq

/-- The persisted root document (`DataFile` in `types.ts`). -/
structure DataFile where
  lists : List WheelList
deriving DecidableEq

/-- A raw incoming item (`{ id?: string; label: string; weight?: number }`). -/
structure RawItemInput where
  id : Option String
  label : String
  weight : Option JSNum
deriving DecidableEq

/-- Payload of `createList` (`CreateListPayload` in `types.ts`). -/
structure CreateListPayload where
  name : String
  description : Option String
  items : Option (List RawItemInput)
deriving DecidableEq

/-- Payload of `updateList` (`UpdateListPayload` in `types.ts`). -/
structure UpdateListPayload where
  name : Option String
  description : Option String
  items : Option (List RawItemInput)
deriving DecidableEq

/-- `store.ts` line 36: maximum retained spin history. -/
def MAX_SPIN_HISTORY : Nat := 20

/-- Model of JavaScript `String.prototype.trim`: strip whitespace from
both ends (structural recursion over the character list). -/
def jsTrim (s : String) : String :=
  String.mk (((s.data.dropWhile Char.isWhitespace).reverse.dropWhile
    Char.isWhitespace).reverse)

/-- `normalizeWeight` (`store.ts` lines 91-98): missing becomes 1,
non-finite becomes 1, a finite value is rounded to the nearest integer
and clamped to a minimum of 1.  The result is always an integer. -/
def normalizeWeight (weight : Option JSNum) : ℤ :=
  let parsed := weight.getD (JSNum.finite 1)
  match parsed with
  | JSNum.finite q => max 1 (jsRound q)
  | _ => 1

/-- The inline weight normalization of the second `WheelStore` variant
(`store.ts` lines 286-294): `Math.max(1, Math.round(item.weight ?? 1))`,
with no finiteness guard, evaluated in JavaScript number arithmetic. -/
def normalizeWeightInline (weight : Option JSNum) : JSNum :=
  jsMax (JSNum.finite 1) (jsRoundNum (weight.getD (JSNum.finite 1)))

/-- `sanitizeName` (`store.ts` lines 100-103). -/
def sanitizeName (name : Option String) : String :=
  let trimmed := (name.map jsTrim).getD ""
  if 0 < trimmed.length then trimmed else "Untitled wheel"

/-- `sanitizeDescription` (`store.ts` lines 105-112). -/
def sanitizeDescription (description : Option String) : Option String :=
  match description with
  | none => none
  | some s =>
    let trimmed := jsTrim s
    if 0 < trimmed.length then some trimmed else none

/-- Recursion underlying `normalizeItems`: `k` counts the ids minted so
far, and `fresh` is the supply of fresh ids (modelling `nanoid()`). -/
def normalizeItemsGo (fresh : Nat → String) (k : Nat) : List RawItemInput → List WheelItem
  | [] => []
  | item :: rest =>
    let label := jsTrim item.label
    if label = "" then
      normalizeItemsGo fresh k rest
    else
      match item.id with
      | some suppliedId =>
        { id := suppliedId, label := label, weight := normalizeWeight item.weight } ::
          normalizeItemsGo fresh k rest
      | none =>
        { id := fresh k, label := label, weight := normalizeWeight item.weight } ::
          normalizeItemsGo fresh (k + 1) rest

/-- `normalizeItems` (`store.ts` lines 74-89): drop entries whose label
trims to empty, trim the surviving labels, keep a supplied id or mint a
fresh one, and clamp the weight via `normalizeWeight`. -/
def normalizeItems (fresh : Nat → String) (items : List RawItemInput) : List WheelItem :=
  normalizeItemsGo fresh 0 items

/-- Total weight of a list of items
(`list.items.reduce((sum, item) => sum + item.weight, 0)`). -/
def sumWeights (items : List WheelItem) : ℤ :=
  (items.map WheelItem.weight).sum

/-- Sum of the weights of the first `k` items: the cumulative weight
just before the scan reaches index `k`. -/
def prefixWeight (items : List WheelItem) (k : Nat) : ℤ :=
  sumWeights (items.take k)

/-- The accumulating scan of `recordSpin` (`store.ts` lines 212-221):
walk the items keeping a running total, returning the first item whose
cumulative weight strictly exceeds `target`. -/
def spinScan (target : ℤ) (running : ℤ) : List WheelItem → Option WheelItem
  | [] => none
  | item :: rest =>
    if target < running + item.weight then some item
    else spinScan target (running + item.weight) rest

/-- The scan started with a running total of 0, as `recordSpin` does. -/
def spinSelect (target : ℤ) (items : List WheelItem) : Option WheelItem :=
  spinScan target 0 items

/-- `Array.prototype.findIndex` paired with the indexed access that
follows it in the source: the first element satisfying `p`, with its
index. -/
def findWithIndex (p : α → Bool) : List α → Option (Nat × α)
  | [] => none
  | a :: as =>
    if p a then some (0, a)
    else (findWithIndex p as).map (fun r => (r.1 + 1, r.2))

/-- Outcome of `recordSpin`: the `undefined` not-found sentinel, the
thrown `NO_ITEMS` error, or a returned `SpinResult`. -/
inductive SpinOutcome where
  | notFound : SpinOutcome
  | noItems : SpinOutcome
  | ok (spin : SpinResult) : SpinOutcome
deriving DecidableEq

/-- Dead-code placeholder for `list.items[list.items.length - 1]` when
the items array is empty (the source guards this case earlier). -/
def fallbackItem : WheelItem := { id := "", label := "", weight := 0 }

/-- `WheelStore.createList` (`store.ts` lines 136-154) as a pure
document transformer.  The nondeterministic inputs — the minted list id,
the fresh item-id supply, and the current instant — are parameters.
Returns the created list and the document as persisted by the final
write. -/
def createList (doc : DataFile) (payload : CreateListPayload) (newId : String)
    (fresh : Nat → String) (now : String) : WheelList × DataFile :=
  let list : WheelList :=
    { id := newId
      name := sanitizeName (some payload.name)
      description := sanitizeDescription payload.description
      items := normalizeItems fresh (payload.items.getD [])
      spins := []
      createdAt := now
      updatedAt := now }
  (list, { lists := doc.lists ++ [list] })

/-- `WheelStore.updateList` (`store.ts` lines 156-177) as a pure
document transformer.  `none` in the first component is the `undefined`
not-found sentinel; the second component is the persisted document. -/
def updateList (doc : DataFile) (id : String) (payload : UpdateListPayload)
    (fresh : Nat → String) (now : String) : Option WheelList × DataFile :=
  match findWithIndex (fun l => l.id == id) doc.lists with
  | none => (none, doc)
  | some (index, list) =>
    let updated : WheelList :=
      { list with
        name := match payload.name with
          | some n => sanitizeName (some n)
          | none => list.name
        description := match payload.description with
          | some d => sanitizeDescription (some d)
          | none => list.description
        items := match payload.items with
          | some rawItems => normalizeItems fresh rawItems
          | none => list.items
        updatedAt := now }
    (some updated, { lists := doc.lists.set index updated })

/-- `WheelStore.deleteList` (`store.ts` lines 179-191) as a pure
document transformer: whether a removal occurred, and the persisted
document (unchanged — not rewritten — when nothing matched). -/
def deleteList (doc : DataFile) (id : String) : Bool × DataFile :=
  let nextLists := doc.lists.filter (fun l => !(l.id == id))
  if nextLists.length ≠ doc.lists.length then (true, { lists := nextLists })
  else (false, doc)

/-- `WheelStore.recordSpin` (`store.ts` lines 193-242) as a pure
document transformer.  The drawn value (`randomInt(totalWeight)`), the
minted spin id and the current instant are parameters.  A thrown
`WheelStoreError` or the not-found sentinel leaves the persisted
document untouched because the write is only reached at the end. -/
def recordSpin (doc : DataFile) (id spinId timestamp : String) (target : ℤ) :
    SpinOutcome × DataFile :=
  match findWithIndex (fun l => l.id == id) doc.lists with
  | none => (SpinOutcome.notFound, doc)
  | some (index, list) =>
    if list.items.isEmpty then (SpinOutcome.noItems, doc)
    else
      let totalWeight := sumWeights list.items
      if totalWeight ≤ 0 then (SpinOutcome.noItems, doc)
      else
        let chosen := (spinSelect target list.items).getD
          (list.items.getLast?.getD fallbackItem)
        let spin : SpinResult :=
          { id := spinId, itemId := chosen.id, label := chosen.label,
            timestamp := timestamp }
        let updated : WheelList :=
          { list with
            spins := (spin :: list.spins).take MAX_SPIN_HISTORY
            updatedAt := timestamp }
        (SpinOutcome.ok spin, { lists := doc.lists.set index updated })

/-- One submitted mutation, with its nondeterministic inputs fixed. -/
inductive StoreOp where
  | create (payload : CreateListPayload) (newId : String) (fresh : Nat → String) (now : String)
  | update (id : String) (payload : UpdateListPayload) (fresh : Nat → String) (now : String)
  | delete (id : String)
  | spin (id spinId timestamp : String) (target : ℤ)

/-- Effect of one mutation on the persisted document. -/
def applyOp (doc : DataFile) : StoreOp → DataFile
  | StoreOp.create payload newId fresh now => (createList doc payload newId fresh now).2
  | StoreOp.update id payload fresh now => (updateList doc id payload fresh now).2
  | StoreOp.delete id => (deleteList doc id).2
  | StoreOp.spin id spinId timestamp target => (recordSpin doc id spinId timestamp target).2

/-- A document is reachable when some sequence of mutations builds it
from the initial `{ lists: [] }` document. -/
def Reachable (doc : DataFile) : Prop :=
  ∃ ops : List StoreOp, doc = ops.foldl applyOp { lists := [] }

/-- How a promise settles: fulfilled, or rejected with a reason. -/
inductive PResult (ε : Type) where
  | fulfilled : PResult ε
  | rejected (reason : ε) : PResult ε
deriving DecidableEq

/-- Denotational model of a promise chain over a shared state `σ`:
running the chain from a state yields the final state and how the last
link settled.  Operations submitted to the store queue are such
promises (their state effect is the document mutation; rejection models
a thrown error). -/
def Promise (σ ε : Type) : Type := σ → σ × PResult ε

/-- `p.then(onFulfilled, onRejected)`: run `p`, then the matching
handler on the resulting state. -/
def pThen {σ ε : Type} (p onFulfilled onRejected : Promise σ ε) : Promise σ ε :=
  fun s =>
    match p s with
    | (s1, PResult.fulfilled) => onFulfilled s1
    | (s1, PResult.rejected _) => onRejected s1

/-- `Promise.resolve()`: settles fulfilled with no state effect.  This
is the initial value of the queue field, and the swallow-errors handler
in the queue reassignment. -/
def resolvedPromise {σ ε : Type} : Promise σ ε := fun s => (s, PResult.fulfilled)

/-- `WheelStore.runSerial` (`store.ts` lines 117-124):
`next = queue.then(operation, operation)` — the operation runs after the
current queue settles, whether it fulfilled or rejected — and the queue
becomes `next.then(() => undefined, () => undefined)`, which swallows
the operation's failure so the chain keeps accepting work.  Returns the
caller-facing promise and the new queue. -/
def runSerial {σ ε : Type} (queue operation : Promise σ ε) :
    Promise σ ε × Promise σ ε :=
  let next := pThen queue operation operation
  (next, pThen next resolvedPromise resolvedPromise)

/-- Submit a batch of operations in order, returning the queue promise
left after the last submission. -/
def submitAll {σ ε : Type} (queue : Promise σ ε) : List (Promise σ ε) → Promise σ ε
  | [] => queue
  | op :: ops => submitAll (runSerial queue op).2 ops

/-- Strictly sequential execution: each operation's state effect applied
once, in list order, regardless of how each operation settles. -/
def seqRun {σ ε : Type} (ops : List (Promise σ ε)) (s : σ) : σ :=
  ops.foldl (fun st op => (op st).1) s

/-- The JS number value of an integer result (for comparing the two
weight-normalization implementations, which both return JS numbers). -/
def intNum (n : ℤ) : JSNum := JSNum.finite (n : ℚ)

/-- The required per-item relation between an output of
`normalizeItems` and the surviving raw input it came from. -/
def ItemSpec (fresh : Nat → String) (out : WheelItem) (inp : RawItemInput) : Prop :=
  out.label = jsTrim inp.label ∧
  out.label ≠ "" ∧
  out.weight = normalizeWeight inp.weight ∧
  (∀ s, inp.id = some s → out.id = s) ∧
  (inp.id = none → ∃ k, out.id = fresh k)

/-! Concrete inputs used by the witness theorems. -/

/-- A deterministic fresh-id supply for concrete runs. -/
def freshW (k : Nat) : String := "item-" ++ toString k

/-- A concrete two-item wheel: weights 1 and 3. -/
def itemsW : List WheelItem :=
  [{ id := "a", label := "A", weight := 1 }, { id := "b", label := "B", weight := 3 }]

/-- A concrete creation payload with two items. -/
def payloadW : CreateListPayload :=
  { name := "Colors", description := none,
    items := some [{ id := none, label := "Red", weight := none },
                   { id := none, label := "Blue", weight := some (JSNum.finite 3) }] }

/-- A concrete creation payload with no items. -/
def payloadE : CreateListPayload :=
  { name := "Empty", description := none, items := none }

/-- The list created from `payloadW`. -/
def listW : WheelList := (createList { lists := [] } payloadW "L1" freshW "t0").1

/-- A one-list document reachable by a single `createList`. -/
def docW : DataFile := (createList { lists := [] } payloadW "L1" freshW "t0").2

/-- The empty-items list created from `payloadE`. -/
def listE : WheelList := (createList { lists := [] } payloadE "L2" freshW "t0").1

/-- A document holding one list with no items. -/
def docE : DataFile := (createList { lists := [] } payloadE "L2" freshW "t0").2

/-- A concrete partial update: only the name is supplied. -/
def updW : UpdateListPayload :=
  { name := some "New Name", description := none, items := none }

/-! Helper lemmas. -/

lemma findWithIndex_eq_none_iff {α : Type} {p : α → Bool} :
    ∀ {l : List α}, findWithIndex p l = none ↔ ∀ a ∈ l, p a = false := by
  intro l
  induction l with
  | nil => simp [findWithIndex]
  | cons x xs ih =>
    by_cases hx : p x
    · simp [findWithIndex, hx]
    · simp only [findWithIndex, if_neg hx, Option.map_eq_none', List.forall_mem_cons]
      rw [← ih]
      simp [Bool.eq_false_iff.mpr hx]

lemma findWithIndex_some_mem {α : Type} {p : α → Bool} :
    ∀ {l : List α} {i : Nat} {a : α},
      findWithIndex p l = some (i, a) → a ∈ l ∧ p a = true := by
  intro l
  induction l with
  | nil => intro i a h; simp [findWithIndex] at h
  | cons x xs ih =>
    intro i a h
    by_cases hx : p x
    · simp only [findWithIndex, if_pos hx, Option.some.injEq, Prod.mk.injEq] at h
      rcases h with ⟨-, rfl⟩
      exact ⟨List.mem_cons_self x xs, hx⟩
    · simp only [findWithIndex, if_neg hx, Option.map_eq_some'] at h
      rcases h with ⟨⟨j, b⟩, hfind, hba⟩
      simp only [Prod.mk.injEq] at hba
      rcases hba with ⟨-, rfl⟩
      rcases ih hfind with ⟨hmem, hp⟩
      exact ⟨List.mem_cons_of_mem x hmem, hp⟩

lemma sumWeights_nil : sumWeights [] = 0 := rfl

lemma sumWeights_cons (item : WheelItem) (rest : List WheelItem) :
    sumWeights (item :: rest) = item.weight + sumWeights rest := by
  simp [sumWeights]

lemma prefixWeight_zero (items : List WheelItem) : prefixWeight items 0 = 0 := rfl

lemma prefixWeight_cons_succ (item : WheelItem) (rest : List WheelItem) (k : Nat) :
    prefixWeight (item :: rest) (k + 1) = item.weight + prefixWeight rest k := by
  simp [prefixWeight, sumWeights]

lemma prefixWeight_nonneg {items : List WheelItem}
    (hw : ∀ it ∈ items, 0 ≤ it.weight) (k : Nat) : 0 ≤ prefixWeight items k := by
  apply List.sum_nonneg
  intro x hx
  rcases List.mem_map.mp hx with ⟨it, hit, rfl⟩
  exact hw it (List.mem_of_mem_take hit)

lemma prefixWeight_mono {items : List WheelItem}
    (hw : ∀ it ∈ items, 0 ≤ it.weight) :
    ∀ {a b : Nat}, a ≤ b → prefixWeight items a ≤ prefixWeight items b := by
  intro a b hab
  have hb : b = a + (b - a) := by omega
  rw [hb]
  unfold prefixWeight sumWeights
  rw [List.take_add, List.map_append, List.sum_append]
  have hnn : 0 ≤ (((items.drop a).take (b - a)).map WheelItem.weight).sum := by
    apply List.sum_nonneg
    intro x hx
    rcases List.mem_map.mp hx with ⟨it, hit, rfl⟩
    exact hw it (List.mem_of_mem_drop (List.mem_of_mem_take hit))
  omega

lemma spinScan_spec (t : ℤ) :
    ∀ (items : List WheelItem) (running : ℤ),
      (∀ it ∈ items, 0 ≤ it.weight) → running ≤ t → t < running + sumWeights items →
      ∃ i, ∃ hi : i < items.length,
        spinScan t running items = some (items.get ⟨i, hi⟩) ∧
        running + prefixWeight items i ≤ t ∧ t < running + prefixWeight items (i + 1) := by
  intro items
  induction items with
  | nil =>
    intro running hw hrun ht
    rw [sumWeights_nil] at ht
    omega
  | cons item rest ih =>
    intro running hw hrun ht
    rw [sumWeights_cons] at ht
    by_cases hsel : t < running + item.weight
    · refine ⟨0, by simp, ?_, ?_, ?_⟩
      · simp [spinScan, hsel]
      · rw [prefixWeight_zero]
        omega
      · rw [prefixWeight_cons_succ, prefixWeight_zero]
        omega
    · push_neg at hsel
      have hw' : ∀ it ∈ rest, 0 ≤ it.weight := fun it hit => hw it (List.mem_cons_of_mem _ hit)
      have ht' : t < running + item.weight + sumWeights rest := by omega
      rcases ih (running + item.weight) hw' hsel ht' with ⟨i, hi, hscan, hlo, hhi⟩
      refine ⟨i + 1, by simpa using Nat.succ_lt_succ hi, ?_, ?_, ?_⟩
      · simpa [spinScan, if_neg (not_lt.mpr hsel)] using hscan
      · rw [prefixWeight_cons_succ]
        omega
      · rw [prefixWeight_cons_succ]
        omega

lemma bucket_unique {items : List WheelItem} (hw : ∀ it ∈ items, 0 ≤ it.weight)
    {t : ℤ} {i j : Nat}
    (hi1 : prefixWeight items i ≤ t) (hi2 : t < prefixWeight items (i + 1))
    (hj1 : prefixWeight items j ≤ t) (hj2 : t < prefixWeight items (j + 1)) : i = j := by
  rcases Nat.lt_trichotomy i j with h | h | h
  · have hmono : prefixWeight items (i + 1) ≤ prefixWeight items j :=
      prefixWeight_mono hw (by omega)
    omega
  · exact h
  · have hmono : prefixWeight items (j + 1) ≤ prefixWeight items i :=
      prefixWeight_mono hw (by omega)
    omega

lemma spinScan_isSome (t : ℤ) :
    ∀ (items : List WheelItem) (running : ℤ), running ≤ t → t < running + sumWeights items →
      (spinScan t running items).isSome = true := by
  intro items
  induction items with
  | nil =>
    intro running h1 h2
    rw [sumWeights_nil] at h2
    omega
  | cons item rest ih =>
    intro running h1 h2
    rw [sumWeights_cons] at h2
    by_cases hsel : t < running + item.weight
    · simp [spinScan, hsel]
    · push_neg at hsel
      simp only [spinScan, if_neg (not_lt.mpr hsel)]
      exact ih (running + item.weight) hsel (by omega)

/-! Claim theorems. -/

/-- C1: for a wheel list with integer weights and a drawn value `t` with
`0 ≤ t < totalWeight`, the accumulating scan of `recordSpin` selects the
first item whose cumulative weight strictly exceeds `t`, which is the
unique item whose weight bucket `[prefix_i, prefix_{i+1})` contains `t`
(ties at bucket boundaries broken by list order), and `recordSpin`
reports exactly that item's id and label. -/
theorem recordSpin_weighted_selection (items : List WheelItem) (t : ℤ)
    (hw : ∀ it ∈ items, 0 ≤ it.weight) (h0 : 0 ≤ t) (ht : t < sumWeights items) :
    ∃ i, ∃ hi : i < items.length,
      spinSelect t items = some (items.get ⟨i, hi⟩) ∧
      prefixWeight items i ≤ t ∧ t < prefixWeight items (i + 1) ∧
      (∀ j, j < items.length → prefixWeight items j ≤ t →
        t < prefixWeight items (j + 1) → j = i) ∧
      (∀ doc id spinId ts index list,
        findWithIndex (fun x => x.id == id) doc.lists = some (index, list) →
        list.items = items →
        (recordSpin doc id spinId ts t).1 =
          SpinOutcome.ok { id := spinId, itemId := (items.get ⟨i, hi⟩).id,
                           label := (items.get ⟨i, hi⟩).label, timestamp := ts }) := by
  rcases spinScan_spec t items 0 hw h0 (by rw [zero_add]; exact ht) with
    ⟨i, hi, hscan, hlo, hhi⟩
  rw [zero_add] at hlo hhi
  refine ⟨i, hi, hscan, hlo, hhi, ?_, ?_⟩
  · intro j _ hj1 hj2
    exact bucket_unique hw hj1 hj2 hlo hhi
  · intro doc id spinId ts index list hfind hitems
    have hpos : 0 < sumWeights items := by omega
    have hne : items ≠ [] := by
      intro hemp
      rw [hemp, sumWeights_nil] at hpos
      omega
    have hempty : items.isEmpty = false := by
      cases items with
      | nil => exact absurd rfl hne
      | cons a as => rfl
    simp only [recordSpin, hfind, hitems, hempty, Bool.false_eq_true, if_false]
    rw [if_neg (by omega)]
    simp only [spinSelect]
    rw [hscan]
    rfl

/-- C9: whenever the total weight exceeds the drawn target (as the
`randomInt(totalWeight)` contract guarantees), the accumulating scan
selects some item, so the defensive fallback to the last item is
unreachable: the selected value does not depend on the fallback. -/
theorem spinSelect_fallback_unreachable (items : List WheelItem) (t : ℤ)
    (h0 : 0 ≤ t) (ht : t < sumWeights items) :
    (spinSelect t items).isSome = true ∧
    ∀ fb1 fb2 : WheelItem, (spinSelect t items).getD fb1 = (spinSelect t items).getD fb2 := by
  have hsome : (spinSelect t items).isSome = true :=
    spinScan_isSome t items 0 h0 (by rw [zero_add]; exact ht)
  refine ⟨hsome, ?_⟩
  intro fb1 fb2
  rcases Option.isSome_iff_exists.mp hsome with ⟨item, hitem⟩
  rw [hitem]
  rfl

/-- Witness for C1: on the two-item wheel with weights `[1, 3]` and
drawn value 2, the scan selects the second item. -/
theorem recordSpin_weighted_selection_witness :
    ∃ i, ∃ hi : i < itemsW.length,
      spinSelect 2 itemsW = some (itemsW.get ⟨i, hi⟩) ∧
      prefixWeight itemsW i ≤ 2 ∧ (2 : ℤ) < prefixWeight itemsW (i + 1) ∧
      (∀ j, j < itemsW.length → prefixWeight itemsW j ≤ 2 →
        (2 : ℤ) < prefixWeight itemsW (j + 1) → j = i) ∧
      (∀ doc id spinId ts index list,
        findWithIndex (fun x => x.id == id) doc.lists = some (index, list) →
        list.items = itemsW →
        (recordSpin doc id spinId ts 2).1 =
          SpinOutcome.ok { id := spinId, itemId := (itemsW.get ⟨i, hi⟩).id,
                           label := (itemsW.get ⟨i, hi⟩).label, timestamp := ts }) :=
  recordSpin_weighted_selection itemsW 2 (by decide) (by decide) (by decide)

/-- Witness for C9: on the same wheel with drawn value 0 the scan
returns an item and ignores the fallback. -/
theorem spinSelect_fallback_unreachable_witness :
    (spinSelect 0 itemsW).isSome = true ∧
    ∀ fb1 fb2 : WheelItem, (spinSelect 0 itemsW).getD fb1 = (spinSelect 0 itemsW).getD fb2 :=
  spinSelect_fallback_unreachable itemsW 0 (by decide) (by decide)

lemma jsRound_one : jsRound 1 = 1 := by
  norm_num [jsRound]

/-- C7: `normalizeWeight` always returns an integer (its codomain is
`ℤ`) that is at least 1; a missing input yields 1, a non-finite input
yields 1, and a finite input is rounded to the nearest integer
(JavaScript `Math.round`) and clamped to a minimum of 1. -/
theorem normalizeWeight_min_one_integer :
    (∀ w : Option JSNum, 1 ≤ normalizeWeight w) ∧
    normalizeWeight none = 1 ∧
    normalizeWeight (some JSNum.nan) = 1 ∧
    normalizeWeight (some JSNum.posInf) = 1 ∧
    normalizeWeight (some JSNum.negInf) = 1 ∧
    (∀ q : ℚ, normalizeWeight (some (JSNum.finite q)) = max 1 (jsRound q)) := by
  have hnone : normalizeWeight none = 1 := by
    show max 1 (jsRound 1) = 1
    rw [jsRound_one]
    simp
  refine ⟨?_, hnone, rfl, rfl, rfl, fun q => rfl⟩
  intro w
  cases w with
  | none => rw [hnone]
  | some v =>
    cases v with
    | nan => exact le_refl 1
    | posInf => exact le_refl 1
    | negInf => exact le_refl 1
    | finite q => exact le_max_left 1 (jsRound q)

/-- Counterexample for C10 as stated: at NaN the primary
`normalizeWeight` yields the number 1 while the second variant's inline
`Math.max(1, Math.round(w ?? 1))` yields NaN. -/
theorem normalizeWeight_inline_differs_at_nan :
    intNum (normalizeWeight (some JSNum.nan)) ≠ normalizeWeightInline (some JSNum.nan) := by
  intro h
  exact JSNum.noConfusion h

/-- C10 amended: the two weight normalizations agree on missing, finite
and negative-infinite inputs, but differ on NaN and positive infinity,
where the inline variant propagates the non-finite value and
`normalizeWeight` clamps to 1. -/
theorem normalizeWeight_inline_agree_except_nonfinite :
    intNum (normalizeWeight none) = normalizeWeightInline none ∧
    intNum (normalizeWeight (some JSNum.negInf)) = normalizeWeightInline (some JSNum.negInf) ∧
    (∀ q : ℚ, intNum (normalizeWeight (some (JSNum.finite q))) =
      normalizeWeightInline (some (JSNum.finite q))) ∧
    normalizeWeightInline (some JSNum.nan) = JSNum.nan ∧
    normalizeWeightInline (some JSNum.posInf) = JSNum.posInf ∧
    normalizeWeight (some JSNum.nan) = 1 ∧
    normalizeWeight (some JSNum.posInf) = 1 := by
  have hfin : ∀ q : ℚ, intNum (normalizeWeight (some (JSNum.finite q))) =
      normalizeWeightInline (some (JSNum.finite q)) := by
    intro q
    simp only [normalizeWeight, normalizeWeightInline, intNum, jsRoundNum, jsMax, Option.getD]
    congr 1
    push_cast
    rfl
  refine ⟨?_, ?_, hfin, rfl, rfl, rfl, rfl⟩
  · have h1 : intNum (normalizeWeight (some (JSNum.finite 1))) =
        normalizeWeightInline (some (JSNum.finite 1)) := hfin 1
    exact h1
  · show intNum 1 = JSNum.finite 1
    simp [intNum]

lemma normalizeItemsGo_spec (fresh : Nat → String) :
    ∀ (items : List RawItemInput) (k : Nat),
      List.Forall₂ (ItemSpec fresh) (normalizeItemsGo fresh k items)
        (items.filter fun i => !(jsTrim i.label == "")) := by
  intro items
  induction items with
  | nil =>
    intro k
    exact List.Forall₂.nil
  | cons item rest ih =>
    intro k
    by_cases hlab : jsTrim item.label = ""
    · rw [List.filter_cons, if_neg (by simp [hlab])]
      simp only [normalizeItemsGo, if_pos hlab]
      exact ih k
    · rw [List.filter_cons, if_pos (by simp [beq_iff_eq, hlab])]
      cases hid : item.id with
      | some s =>
        simp only [normalizeItemsGo, if_neg hlab, hid]
        refine List.Forall₂.cons ⟨rfl, hlab, rfl, ?_, ?_⟩ (ih k)
        · intro s' hs'
          rw [hid] at hs'
          exact Option.some.inj hs'
        · intro hnone
          rw [hid] at hnone
          exact absurd hnone (by simp)
      | none =>
        simp only [normalizeItemsGo, if_neg hlab, hid]
        refine List.Forall₂.cons ⟨rfl, hlab, rfl, ?_, ?_⟩ (ih (k + 1))
        · intro s' hs'
          rw [hid] at hs'
          exact absurd hs' (by simp)
        · intro _
          exact ⟨k, rfl⟩

/-- C8: `normalizeItems` keeps exactly the raw entries whose label is
non-empty after trimming, in their original order; each surviving
output item carries the trimmed (hence non-empty) label, the weight
clamped by `normalizeWeight`, the supplied id when one was given, and a
freshly minted id otherwise. -/
theorem normalizeItems_filters_trims_preserves (fresh : Nat → String)
    (items : List RawItemInput) :
    List.Forall₂ (ItemSpec fresh) (normalizeItems fresh items)
      (items.filter fun i => !(jsTrim i.label == "")) :=
  normalizeItemsGo_spec fresh items 0

lemma submitAll_spec {σ ε : Type} :
    ∀ (ops : List (Promise σ ε)) (q : Promise σ ε),
      (∀ s, (q s).2 = PResult.fulfilled) →
      ∀ s, submitAll q ops s = (seqRun ops (q s).1, PResult.fulfilled) := by
  intro ops
  induction ops with
  | nil =>
    intro q hq s
    have : q s = ((q s).1, (q s).2) := rfl
    rw [submitAll, this, hq s]
    rfl
  | cons op ops ih =>
    intro q hq s
    have hstep : ∀ s1, (runSerial q op).2 s1 = ((op ((q s1).1)).1, PResult.fulfilled) := by
      intro s1
      show pThen (pThen q op op) resolvedPromise resolvedPromise s1 = _
      unfold pThen resolvedPromise
      cases hq1 : q s1 with
      | mk qs qr =>
        have hful : qr = PResult.fulfilled := by
          have h2 := hq s1
          rw [hq1] at h2
          exact h2
        subst hful
        cases hop : op qs with
        | mk os osettle =>
          cases osettle with
          | fulfilled => simp [hq1, hop]
          | rejected e => simp [hq1, hop]
    have hq' : ∀ s1, ((runSerial q op).2 s1).2 = PResult.fulfilled := by
      intro s1
      rw [hstep s1]
    have hfst : (((runSerial q op).2) s).1 = (op ((q s).1)).1 := by
      rw [hstep s]
    rw [submitAll, ih ((runSerial q op).2) hq' s, hfst]
    rfl

/-- C2: submitting mutations through `runSerial` yields a queue whose
execution is exactly the strictly sequential run of the operations in
submission order: each operation's effect on the shared state is
applied exactly once, in FIFO order, an operation runs only after its
predecessor settled, and a rejected (failing) operation does not stop
the operations queued after it — the final queue always settles
fulfilled. -/
theorem runSerial_fifo_and_recovers {σ ε : Type}
    (ops : List (Promise σ ε)) (s : σ) :
    submitAll resolvedPromise ops s = (seqRun ops s, PResult.fulfilled) :=
  submitAll_spec ops resolvedPromise (fun _ => rfl) s

/-- C3: each mutation that ends in failure leaves the persisted
document exactly as it was before the operation: a not-found
`updateList`, a not-found `deleteList`, and a `recordSpin` hitting the
not-found sentinel or the `NO_ITEMS` error all return the unchanged
document, because the write step only executes after the full
in-memory mutation has succeeded (`createList` has no in-memory
failure path). -/
theorem mutation_failure_preserves_document (doc : DataFile)
    (id spinId ts now : String) (payload : UpdateListPayload)
    (fresh : Nat → String) (target : ℤ) :
    ((updateList doc id payload fresh now).1 = none →
      (updateList doc id payload fresh now).2 = doc) ∧
    ((deleteList doc id).1 = false → (deleteList doc id).2 = doc) ∧
    ((recordSpin doc id spinId ts target).1 = SpinOutcome.notFound →
      (recordSpin doc id spinId ts target).2 = doc) ∧
    ((recordSpin doc id spinId ts target).1 = SpinOutcome.noItems →
      (recordSpin doc id spinId ts target).2 = doc) := by
  refine ⟨?_, ?_, ?_, ?_⟩
  · intro h
    cases hf : findWithIndex (fun x => x.id == id) doc.lists with
    | none => simp [updateList, hf]
    | some r =>
      cases r with
      | mk index list =>
        simp [updateList, hf] at h
  · intro h
    simp only [deleteList] at h ⊢
    by_cases hc : (doc.lists.filter (fun l => !(l.id == id))).length ≠ doc.lists.length
    · rw [if_pos hc] at h
      exact absurd h (by simp)
    · rw [if_neg hc]
  · intro h
    cases hf : findWithIndex (fun x => x.id == id) doc.lists with
    | none => simp [recordSpin, hf]
    | some r =>
      cases r with
      | mk index list =>
        by_cases hemp : list.items.isEmpty
        · simp [recordSpin, hf, hemp] at h
        · by_cases htw : sumWeights list.items ≤ 0
          · simp [recordSpin, hf, hemp, htw] at h
          · simp [recordSpin, hf, hemp, htw] at h
  · intro h
    cases hf : findWithIndex (fun x => x.id == id) doc.lists with
    | none => simp [recordSpin, hf] at h
    | some r =>
      cases r with
      | mk index list =>
        by_cases hemp : list.items.isEmpty
        · simp [recordSpin, hf, hemp]
        · by_cases htw : sumWeights list.items ≤ 0
          · simp [recordSpin, hf, hemp, htw]
          · simp [recordSpin, hf, hemp, htw] at h

/-- C5: `recordSpin` returns the not-found sentinel exactly when no
list has a matching id; it fails with `NoItems` exactly when the first
matching list has zero items or a total item weight that is not
positive; otherwise it returns a `SpinResult`. -/
theorem recordSpin_failure_cases (doc : DataFile) (id spinId ts : String) (target : ℤ) :
    ((recordSpin doc id spinId ts target).1 = SpinOutcome.notFound ↔
      ∀ l ∈ doc.lists, l.id ≠ id) ∧
    (∀ index list, findWithIndex (fun x => x.id == id) doc.lists = some (index, list) →
      ((recordSpin doc id spinId ts target).1 = SpinOutcome.noItems ↔
        (list.items = [] ∨ sumWeights list.items ≤ 0))) ∧
    (∀ index list, findWithIndex (fun x => x.id == id) doc.lists = some (index, list) →
      list.items ≠ [] → 0 < sumWeights list.items →
      ∃ spin, (recordSpin doc id spinId ts target).1 = SpinOutcome.ok spin) := by
  refine ⟨?_, ?_, ?_⟩
  · cases hf : findWithIndex (fun x => x.id == id) doc.lists with
    | none =>
      have hnone := findWithIndex_eq_none_iff.mp hf
      constructor
      · intro _ l hl
        have := hnone l hl
        rw [beq_eq_false_iff_ne] at this
        exact this
      · intro _
        simp [recordSpin, hf]
    | some r =>
      cases r with
      | mk index list =>
        rcases findWithIndex_some_mem hf with ⟨hmem, hp⟩
        constructor
        · intro h
          by_cases hemp : list.items.isEmpty
          · simp [recordSpin, hf, hemp] at h
          · by_cases htw : sumWeights list.items ≤ 0
            · simp [recordSpin, hf, hemp, htw] at h
            · simp [recordSpin, hf, hemp, htw] at h
        · intro hall
          have := hall list hmem
          rw [beq_iff_eq] at hp
          exact absurd hp this
  · intro index list hf
    rcases findWithIndex_some_mem hf with ⟨hmem, hp⟩
    constructor
    · intro h
      by_cases hemp : list.items.isEmpty
      · left
        exact List.isEmpty_iff.mp hemp
      · by_cases htw : sumWeights list.items ≤ 0
        · right
          exact htw
        · simp [recordSpin, hf, hemp, htw] at h
    · intro hcase
      rcases hcase with hemp | htw
      · have : list.items.isEmpty = true := List.isEmpty_iff.mpr hemp
        simp [recordSpin, hf, this]
      · by_cases hemp : list.items.isEmpty
        · simp [recordSpin, hf, hemp]
        · simp [recordSpin, hf, hemp, htw]
  · intro index list hf hne htw
    have hemp : list.items.isEmpty = false := by
      cases hli : list.items with
      | nil => exact absurd hli hne
      | cons a as => rfl
    have hout : (recordSpin doc id spinId ts target).1 =
        SpinOutcome.ok
          { id := spinId
            itemId := ((spinSelect target list.items).getD
              (list.items.getLast?.getD fallbackItem)).id
            label := ((spinSelect target list.items).getD
              (list.items.getLast?.getD fallbackItem)).label
            timestamp := ts } := by
      simp [recordSpin, hf, hemp, not_le.mpr htw]
    exact ⟨_, hout⟩

/-- C6: on an existing list, `updateList` changes only the fields
supplied in the payload — name, description and items, each
re-normalized — plus `updatedAt`, which is set to the current instant;
omitted fields keep their prior value, and `id`, `createdAt` and
`spins` are unchanged for every payload. -/
theorem updateList_partial_update (doc : DataFile) (id : String)
    (payload : UpdateListPayload) (fresh : Nat → String) (now : String)
    (index : Nat) (list : WheelList)
    (hf : findWithIndex (fun x => x.id == id) doc.lists = some (index, list)) :
    ∃ u, updateList doc id payload fresh now = (some u, { lists := doc.lists.set index u }) ∧
      u.id = list.id ∧ u.createdAt = list.createdAt ∧ u.spins = list.spins ∧
      u.updatedAt = now ∧
      (payload.name = none → u.name = list.name) ∧
      (∀ n, payload.name = some n → u.name = sanitizeName (some n)) ∧
      (payload.description = none → u.description = list.description) ∧
      (∀ d, payload.description = some d → u.description = sanitizeDescription (some d)) ∧
      (payload.items = none → u.items = list.items) ∧
      (∀ raw, payload.items = some raw → u.items = normalizeItems fresh raw) := by
  refine ⟨{ list with
      name := match payload.name with
        | some n => sanitizeName (some n)
        | none => list.name
      description := match payload.description with
        | some d => sanitizeDescription (some d)
        | none => list.description
      items := match payload.items with
        | some raw => normalizeItems fresh raw
        | none => list.items
      updatedAt := now }, ?_, rfl, rfl, rfl, rfl, ?_, ?_, ?_, ?_, ?_, ?_⟩
  · simp [updateList, hf]
  · intro h
    simp only [h]
  · intro n h
    simp only [h]
  · intro h
    simp only [h]
  · intro d h
    simp only [h]
  · intro h
    simp only [h]
  · intro raw h
    simp only [h]

lemma spins_bound_step (doc : DataFile) (op : StoreOp)
    (h : ∀ l ∈ doc.lists, l.spins.length ≤ MAX_SPIN_HISTORY) :
    ∀ l ∈ (applyOp doc op).lists, l.spins.length ≤ MAX_SPIN_HISTORY := by
  cases op with
  | create payload newId fresh now =>
    intro l hl
    simp only [applyOp, createList] at hl
    rcases List.mem_append.mp hl with hmem | hmem
    · exact h l hmem
    · rcases List.mem_singleton.mp hmem with rfl
      simp [MAX_SPIN_HISTORY]
  | update id payload fresh now =>
    intro l hl
    simp only [applyOp] at hl
    cases hf : findWithIndex (fun x => x.id == id) doc.lists with
    | none =>
      simp only [updateList, hf] at hl
      exact h l hl
    | some r =>
      cases r with
      | mk index list =>
        simp only [updateList, hf] at hl
        rcases List.mem_or_eq_of_mem_set hl with hmem | rfl
        · exact h l hmem
        · exact h list (findWithIndex_some_mem hf).1
  | delete id =>
    intro l hl
    simp only [applyOp, deleteList] at hl
    by_cases hc : (doc.lists.filter (fun x => !(x.id == id))).length ≠ doc.lists.length
    · rw [if_pos hc] at hl
      exact h l (List.mem_filter.mp hl).1
    · rw [if_neg hc] at hl
      exact h l hl
  | spin id spinId ts target =>
    intro l hl
    simp only [applyOp] at hl
    cases hf : findWithIndex (fun x => x.id == id) doc.lists with
    | none =>
      simp only [recordSpin, hf] at hl
      exact h l hl
    | some r =>
      cases r with
      | mk index list =>
        by_cases hemp : list.items.isEmpty
        · simp only [recordSpin, hf, hemp, if_true] at hl
          exact h l hl
        · by_cases htw : sumWeights list.items ≤ 0
          · simp only [recordSpin, hf, hemp, htw] at hl
            simp at hl
            exact h l hl
          · simp only [recordSpin, hf] at hl
            rw [if_neg (by simp [hemp]), if_neg htw] at hl
            rcases List.mem_or_eq_of_mem_set hl with hmem | rfl
            · exact h l hmem
            · simp only [List.length_take]
              exact Nat.min_le_left _ _

lemma spins_bound_foldl :
    ∀ (ops : List StoreOp) (doc : DataFile),
      (∀ l ∈ doc.lists, l.spins.length ≤ MAX_SPIN_HISTORY) →
      ∀ l ∈ (ops.foldl applyOp doc).lists, l.spins.length ≤ MAX_SPIN_HISTORY := by
  intro ops
  induction ops with
  | nil =>
    intro doc h
    simpa using h
  | cons op ops ih =>
    intro doc h
    exact ih (applyOp doc op) (spins_bound_step doc op h)

/-- C4: in every reachable document each list keeps at most
`MAX_SPIN_HISTORY` (20) spins; a successful `recordSpin` prepends the
new `SpinResult` (newest first) and truncates to the 20 most recent,
evicting from the oldest end; `createList` starts with empty spins,
`updateList` leaves the matched list's spins unchanged, and
`deleteList` only removes lists — no operation lengthens a spin
history. -/
theorem spin_history_invariant :
    (∀ doc, Reachable doc → ∀ l ∈ doc.lists, l.spins.length ≤ MAX_SPIN_HISTORY) ∧
    (∀ doc id spinId ts target index list,
      findWithIndex (fun x => x.id == id) doc.lists = some (index, list) →
      list.items ≠ [] → 0 < sumWeights list.items →
      ∃ spin, recordSpin doc id spinId ts target =
        (SpinOutcome.ok spin,
          { lists := doc.lists.set index
              { list with spins := (spin :: list.spins).take MAX_SPIN_HISTORY,
                          updatedAt := ts } })) ∧
    (∀ doc payload newId fresh now,
      ((createList doc payload newId fresh now).1).spins = []) ∧
    (∀ doc id payload fresh now index list,
      findWithIndex (fun x => x.id == id) doc.lists = some (index, list) →
      ∃ u, (updateList doc id payload fresh now).1 = some u ∧ u.spins = list.spins) ∧
    (∀ doc id l, l ∈ ((deleteList doc id).2).lists → l ∈ doc.lists) := by
  refine ⟨?_, ?_, ?_, ?_, ?_⟩
  · intro doc hr
    rcases hr with ⟨ops, rfl⟩
    exact spins_bound_foldl ops { lists := [] } (by simp)
  · intro doc id spinId ts target index list hf hne htw
    have hemp : list.items.isEmpty = false := by
      cases hli : list.items with
      | nil => exact absurd hli hne
      | cons a as => rfl
    refine ⟨⟨spinId, ((spinSelect target list.items).getD (list.items.getLast?.getD fallbackItem)).id, ((spinSelect target list.items).getD (list.items.getLast?.getD fallbackItem)).label, ts⟩, ?_⟩
    simp [recordSpin, hf, hemp, not_le.mpr htw]
  · intro doc payload newId fresh now
    rfl
  · intro doc id payload fresh now index list hf
    refine ⟨{ list with
        name := match payload.name with
          | some n => sanitizeName (some n)
          | none => list.name
        description := match payload.description with
          | some d => sanitizeDescription (some d)
          | none => list.description
        items := match payload.items with
          | some raw => normalizeItems fresh raw
          | none => list.items
        updatedAt := now }, ?_, rfl⟩
    simp [updateList, hf]
  · intro doc id l hl
    simp only [deleteList] at hl
    by_cases hc : (doc.lists.filter (fun x => !(x.id == id))).length ≠ doc.lists.length
    · rw [if_pos hc] at hl
      exact (List.mem_filter.mp hl).1
    · rw [if_neg hc] at hl
      exact hl

/-! Evaluation lemmas for the concrete witness inputs (the `ℚ`-valued
floor inside `jsRound` does not reduce in the kernel, so the two weight
values appearing in `listW` are evaluated by lemma). -/

lemma jsRound_three : jsRound 3 = 3 := by
  norm_num [jsRound]

lemma normalizeWeight_missing : normalizeWeight none = 1 := by
  show max 1 (jsRound 1) = 1
  rw [jsRound_one]
  simp

lemma normalizeWeight_finite_three : normalizeWeight (some (JSNum.finite 3)) = 3 := by
  show max 1 (jsRound 3) = 3
  rw [jsRound_three]
  simp

lemma listW_items_eval :
    listW.items = [⟨"item-0", "Red", 1⟩, ⟨"item-1", "Blue", 3⟩] := by
  show normalizeItems freshW
    [⟨none, "Red", none⟩, ⟨none, "Blue", some (JSNum.finite 3)⟩] = _
  simp [normalizeItems, normalizeItemsGo, freshW, normalizeWeight_missing,
    normalizeWeight_finite_three]
  decide

/-- Witness for C3: on a concrete document, a not-found `updateList`,
`deleteList` and `recordSpin`, and a `recordSpin` on a list with no
items, all leave the persisted document unchanged. -/
theorem mutation_failure_preserves_document_witness :
    (updateList docW "zz" updW freshW "t1").2 = docW ∧
    (deleteList docW "zz").2 = docW ∧
    (recordSpin docW "zz" "s" "t" 0).2 = docW ∧
    (recordSpin docE "L2" "s" "t" 0).2 = docE :=
  ⟨(mutation_failure_preserves_document docW "zz" "s" "t" "t1" updW freshW 0).1 rfl,
   (mutation_failure_preserves_document docW "zz" "s" "t" "t1" updW freshW 0).2.1 rfl,
   (mutation_failure_preserves_document docW "zz" "s" "t" "t1" updW freshW 0).2.2.1 rfl,
   (mutation_failure_preserves_document docE "L2" "s" "t" "t1" updW freshW 0).2.2.2 rfl⟩

/-- Witness for C5: the three outcome characterizations at concrete
documents — an unknown id, a list with no items, and a spinnable
list. -/
theorem recordSpin_failure_cases_witness :
    ((recordSpin docW "zz" "s" "t" 0).1 = SpinOutcome.notFound ↔
      ∀ l ∈ docW.lists, l.id ≠ "zz") ∧
    ((recordSpin docE "L2" "s" "t" 0).1 = SpinOutcome.noItems ↔
      (listE.items = [] ∨ sumWeights listE.items ≤ 0)) ∧
    (∃ spin, (recordSpin docW "L1" "s" "t" 2).1 = SpinOutcome.ok spin) :=
  ⟨(recordSpin_failure_cases docW "zz" "s" "t" 0).1,
   (recordSpin_failure_cases docE "L2" "s" "t" 0).2.1 0 listE rfl,
   (recordSpin_failure_cases docW "L1" "s" "t" 2).2.2 0 listW rfl
     (by rw [listW_items_eval]; decide) (by rw [listW_items_eval]; decide)⟩

/-- Witness for C4: the spin bound on a concretely reachable document,
the prepend-and-truncate shape of a concrete successful spin, empty
spins on creation, spin preservation on update, and delete only
removing lists. -/
theorem spin_history_invariant_witness :
    (∀ l ∈ docW.lists, l.spins.length ≤ MAX_SPIN_HISTORY) ∧
    (∃ spin, recordSpin docW "L1" "sp" "t2" 1 =
      (SpinOutcome.ok spin,
        { lists := docW.lists.set 0
            { listW with spins := (spin :: listW.spins).take MAX_SPIN_HISTORY,
                         updatedAt := "t2" } })) ∧
    ((createList docE payloadW "L3" freshW "t3").1).spins = [] ∧
    (∃ u, (updateList docW "L1" updW freshW "t1").1 = some u ∧ u.spins = listW.spins) ∧
    listW ∈ docW.lists :=
  ⟨spin_history_invariant.1 docW ⟨[StoreOp.create payloadW "L1" freshW "t0"], rfl⟩,
   spin_history_invariant.2.1 docW "L1" "sp" "t2" 1 0 listW rfl
     (by rw [listW_items_eval]; decide) (by rw [listW_items_eval]; decide),
   spin_history_invariant.2.2.1 docE payloadW "L3" freshW "t3",
   spin_history_invariant.2.2.2.1 docW "L1" updW freshW "t1" 0 listW rfl,
   spin_history_invariant.2.2.2.2 docW "zz" listW (List.Mem.head [])⟩

/-- Witness for C6: a concrete name-only update keeps id, createdAt,
spins, description and items, and refreshes updatedAt. -/
theorem updateList_partial_update_witness :
    ∃ u, updateList docW "L1" updW freshW "t1" = (some u, { lists := docW.lists.set 0 u }) ∧
      u.id = listW.id ∧ u.createdAt = listW.createdAt ∧ u.spins = listW.spins ∧
      u.updatedAt = "t1" ∧
      (updW.name = none → u.name = listW.name) ∧
      (∀ n, updW.name = some n → u.name = sanitizeName (some n)) ∧
      (updW.description = none → u.description = listW.description) ∧
      (∀ d, updW.description = some d → u.description = sanitizeDescription (some d)) ∧
      (updW.items = none → u.items = listW.items) ∧
      (∀ raw, updW.items = some raw → u.items = normalizeItems freshW raw) :=
  updateList_partial_update docW "L1" updW freshW "t1" 0 listW rfl

end WheelPicker

